import Mathlib

/-!
Shallow embedding of the PySec core (files `pysec/alg.py` and `pysec/io/fd.py`)
together with proofs of the specified properties.

Conventions of the embedding:
* Python byte strings / sequences are `List α` with decidable equality
  (`List Nat` at concrete instances).
* Python's `int` is `Int`; indices and lengths that the code keeps
  non-negative are `Nat`.
* A Python `while` loop is a fuel-indexed recursion; the fuel passed at each
  call site is shown (in the lemmas below) to dominate the number of
  iterations the loop can perform from the states that actually reach it,
  so the guard is false on the state the function returns.
* Exceptions are modelled by an explicit result type; a raised exception
  leaves the object state as it was at raise time, exactly as in Python,
  so every operation returns the (possibly updated) state next to its result.
* The collaborators that are outside `src/` (the `pysec.core.unistd`
  syscall wrappers and the `pysec.io.fcheck` oracle) are modelled from the
  spec, as marked in their doc comments; the oracle's verdicts are plain
  `Bool` parameters.
-/

/-! ## Python-style sequence access -/

/-- Python sequence indexing `l[i]`, including the negative-index wrap-around
(`l[-1]` is the last element).  Total: out-of-range accesses give `none`;
every access the embedded code performs is in Python's legal range. -/
def pyGet {α : Type} (l : List α) (i : Int) : Option α :=
  if 0 ≤ i then l.get? i.toNat else l.get? (l.length - (-i).toNat)

/-- Python's `itertools.islice(source, start, stop)`: the elements of `source` with
indices in `[start, stop)` (to the end when `stop` is `None`). -/
def islice {α : Type} (l : List α) (start : Nat) (stop : Option Nat) : List α :=
  match stop with
  | none => l.drop start
  | some s => (l.take s).drop start

/-! ## `pysec/alg.py`: the `knp` matcher -/

/-- The inner `while` of the shift-table construction in `knp`
(`while pattern[pos] != pattern[pos - shift] and shift <= pos:`),
advancing `shift` by `shifts[pos - shift]`.  `and` evaluates both operands
here without effect, so the conjunction is plain `∧`.  The fuel passed by
`tBuild` exceeds the largest possible iteration count. -/
def tAdjust {α : Type} [DecidableEq α] (P : List α) (ts : List Nat) (pos : Nat) :
    Nat → Nat → Nat
  | 0, shift => shift
  | fuel + 1, shift =>
    if pyGet P (pos : Int) ≠ pyGet P ((pos : Int) - (shift : Int)) ∧ shift ≤ pos then
      tAdjust P ts pos fuel (shift + ts.getD (pos - shift) 1)
    else shift

/-- The shift-table construction loop of `knp`: after processing positions
`0..n-1` of the pattern it returns the table entries `shifts[0..n]` together
with the running `shift` value.  The Python list is initialised to `1`s and
each iteration writes only the next entry `shifts[pos + 1]` (reading only
entries `≤ pos`), so the mutation is faithfully an append. -/
def tBuild {α : Type} [DecidableEq α] (P : List α) : Nat → List Nat × Nat
  | 0 => ([1], 1)
  | n + 1 =>
    let p := tBuild P n
    let s := tAdjust P p.1 n (n + 1) p.2
    (p.1 ++ [s], s)

/-- The `shifts` table of `knp(source, pattern, ...)`:
`shifts = [1] * (len(pattern) + 1)` updated by the construction loop. -/
def shifts {α : Type} [DecidableEq α] (P : List α) : List Nat :=
  (tBuild P P.length).1

/-- The inner `while` of the search loop of `knp`
(`while mlen == plen or mlen >= 0 and pattern[mlen] != sub:`), folding
the state `(start, mlen)` by the shift table.  `mlen` can reach `-1`,
hence `Int`.  The fuel passed by `sRun` exceeds the largest possible
iteration count. -/
def sFold {α : Type} [DecidableEq α] (P : List α) (ts : List Nat) (c : α) :
    Nat → Nat × Int → Nat × Int
  | 0, st => st
  | fuel + 1, (start, mlen) =>
    if mlen = (P.length : Int) ∨ (0 ≤ mlen ∧ pyGet P mlen ≠ some c) then
      let sl : Nat := ts.getD mlen.toNat 1
      sFold P ts c fuel (start + sl, mlen - sl)
    else (start, mlen)

/-- The search loop of `knp`: for each scanned element fold the state, add
one to `mlen`, and yield `start` whenever `mlen == plen`. -/
def sRun {α : Type} [DecidableEq α] (P : List α) (ts : List Nat) :
    List α → Nat × Int → List Nat
  | [], _ => []
  | c :: rest, st =>
    let st1 := sFold P ts c (P.length + 2) st
    let st2 : Nat × Int := (st1.1, st1.2 + 1)
    if st2.2 = (P.length : Int) then st2.1 :: sRun P ts rest st2
    else sRun P ts rest st2

/-- Function `knp(source, pattern, start=0, stop=None)`: the list of offsets the
generator yields, in order. -/
def knp {α : Type} [DecidableEq α] (source pattern : List α) (start : Nat)
    (stop : Option Nat) : List Nat :=
  sRun pattern (shifts pattern) (islice source start stop) (start, 0)

/-- Function `knp_first(source, pattern, start=0, stop=None)`: the first yielded
offset, or `-1` when the generator is exhausted at once (`StopIteration`). -/
def knp_first {α : Type} [DecidableEq α] (source pattern : List α) (start : Nat)
    (stop : Option Nat) : Int :=
  match knp source pattern start stop with
  | [] => -1
  | o :: _ => (o : Int)

/-! ## Specification-side definitions for the matcher -/

/-- The exhaustive-scan description of the matcher, written from the spec:
the ascending list of all offsets `o` with `start ≤ o` at which the pattern
occurs inside `source[start:stop)`. -/
def naiveOccs {α : Type} [DecidableEq α] (S P : List α) (start : Nat)
    (stop : Option Nat) : List Nat :=
  let hi := match stop with | none => S.length | some s => min s S.length
  (List.range' start (hi - start)).filter
    (fun o => decide ((S.drop o).take P.length = P ∧ o + P.length ≤ hi))

/-- Value `s` is a valid shift of the length-`m` pattern prefix: shifting the
prefix by `s` leaves it matching itself (equivalently, `m - s` is a border
length of `P.take m`). -/
def isShift {α : Type} (P : List α) (m s : Nat) : Prop :=
  (P.take m).drop s = P.take (m - s)

/-- Value `s` is the smallest positive valid shift of the length-`m` prefix. -/
def IsMinShift {α : Type} (P : List α) (m s : Nat) : Prop :=
  1 ≤ s ∧ isShift P m s ∧ ∀ k, 1 ≤ k → k < s → ¬ isShift P m k

/-- During the scan, offset `d` of the text is a viable match candidate
after `j` elements have been consumed: the consumed elements from `d` on
agree with the corresponding pattern prefix (which must not be longer than
the pattern). -/
def viable {α : Type} (P T : List α) (j d : Nat) : Prop :=
  d ≤ j ∧ j - d ≤ P.length ∧ (T.take j).drop d = P.take (j - d)

/-- The pattern occurs in the text at offset `d`. -/
def occAt {α : Type} (P T : List α) (d : Nat) : Prop :=
  d + P.length ≤ T.length ∧ (T.drop d).take P.length = P

instance {α : Type} [DecidableEq α] (P : List α) (m s : Nat) :
    Decidable (isShift P m s) := by unfold isShift; infer_instance

instance {α : Type} [DecidableEq α] (P T : List α) (j d : Nat) :
    Decidable (viable P T j d) := by unfold viable; infer_instance

instance {α : Type} [DecidableEq α] (P T : List α) (d : Nat) :
    Decidable (occAt P T d) := by unfold occAt; infer_instance

/-- A shift table is good for a pattern when each entry is the minimal
positive valid shift of the corresponding pattern prefix. -/
def GoodTable {α : Type} (P : List α) (ts : List Nat) : Prop :=
  ∀ m, m ≤ P.length → IsMinShift P m (ts.getD m 1)

/-- The offsets the scan yields while consuming positions `j, j+1, ...` of
the text: an occurrence ending at `i + 1` is yielded right after position
`i` is consumed, as `s0 + (i + 1 - |P|)`. -/
def endYields {α : Type} [DecidableEq α] (P T : List α) (s0 j : Nat) : List Nat :=
  (List.range' j (T.length - j)).filterMap (fun i =>
    if P.length ≤ i + 1 ∧ occAt P T (i + 1 - P.length) then
      some (s0 + (i + 1 - P.length))
    else none)

/-! ## `pysec/io/fd.py`: errors, guards, and the `File` operations -/

/-- The exceptions the embedded operations can raise.  `incompleteWrite`
carries the two fields the class constructor actually stores
(`fd` and `size`). -/
inductive PyErr where
  | valueError
  | typeError
  | osError
  | notReadable (fd : Nat)
  | notWriteable (fd : Nat)
  | incompleteWrite (fd : Int) (size : Int)
deriving DecidableEq, Repr

/-- Result of an operation: normal return, raised exception, or
non-termination of a retry loop (reachable only with a non-positive
attempt budget). -/
inductive PyRes (β : Type) where
  | ok (val : β)
  | exn (e : PyErr)
  | hang
deriving DecidableEq, Repr

/-- Constant `os.O_WRONLY` (Linux). -/
def O_WRONLY : Nat := 1
/-- Constant `os.O_RDWR` (Linux). -/
def O_RDWR : Nat := 2
/-- Constant `os.O_APPEND` (Linux). -/
def O_APPEND : Nat := 1024

/-- The `read_check` decorator's guard: reading is allowed unless the live
flags contain `os.O_WRONLY` (`if not fd.flags & os.O_WRONLY`). -/
def read_check (flags : Nat) : Bool :=
  flags &&& O_WRONLY == 0

/-- The `write_check` decorator's guard: writing is allowed when the live
flags contain `os.O_WRONLY` or `os.O_APPEND`
(`if fd.flags & os.O_WRONLY or fd.flags & os.O_APPEND`). -/
def write_check (flags : Nat) : Bool :=
  (flags &&& O_WRONLY != 0) || (flags &&& O_APPEND != 0)

/-- Calling the `IncompleteWrite` class with the given positional arguments:
its `__init__(self, fd, size)` accepts exactly two, any other arity is a
`TypeError` at the call site. -/
def incompleteWriteNew (args : List Int) : PyErr :=
  match args with
  | [fd, size] => .incompleteWrite fd size
  | _ => .typeError

/-- The mutable state of a `File` object: the raw descriptor and the
logical cursor `self.pos`. -/
structure FileSt where
  fd : Nat
  pos : Int
deriving DecidableEq, Repr

/-- Constructor `File.__init__`: wraps a (non-negative) descriptor and sets
`self.pos = 0`. -/
def fileInit (fd : Nat) : FileSt := ⟨fd, 0⟩

/-- Modelled from the spec: `pysec.core.unistd.pread` is not under `src/`.
Per the spec's syscall collaborator (OS-native `pread` semantics) it fails
on a negative offset and otherwise returns up to `size` bytes starting at
`off`, short or empty past end-of-file. -/
def preadSys (content : List Nat) (size : Nat) (off : Int) : PyRes (List Nat) :=
  if off < 0 then .exn .osError
  else .ok ((content.drop off.toNat).take size)

/-- Modelled from the spec: `pysec.core.unistd.pwrite` is not under `src/`.
Per the spec's syscall collaborator it fails on a negative offset and
otherwise transfers some number of bytes, at most the requested count; the
count transferred by the `k`-th call of the surrounding loop is supplied by
the oracle `w`. -/
def pwriteSys (w : Nat → Nat) (k : Nat) (requested : Nat) (off : Int) : PyRes Nat :=
  if off < 0 then .exn .osError else .ok (min (w k) requested)

namespace File

/-- Method `File.read(size=None, pos=None)`: checked read at `pos` that advances
the cursor by the bytes actually read. -/
def read (flags : Nat) (content : List Nat) (st : FileSt)
    (size : Option Int) (pos : Option Int) : FileSt × PyRes (List Nat) :=
  if read_check flags = false then (st, .exn (.notReadable st.fd))
  else
    let size : Int := size.getD (content.length : Int)
    let pos : Int := pos.getD st.pos
    if size < 0 then (st, .exn .valueError)
    else
      match preadSys content size.toNat pos with
      | .exn e => (st, .exn e)
      | .hang => (st, .hang)
      | .ok chunk => ({ st with pos := pos + chunk.length }, .ok chunk)

/-- Method `File.pread(size=None, pos=None)`: same as `read` but with no
assignment to `self.pos`. -/
def pread (flags : Nat) (content : List Nat) (st : FileSt)
    (size : Option Int) (pos : Option Int) : FileSt × PyRes (List Nat) :=
  if read_check flags = false then (st, .exn (.notReadable st.fd))
  else
    let size : Int := size.getD (content.length : Int)
    let pos : Int := pos.getD st.pos
    if size < 0 then (st, .exn .valueError)
    else
      match preadSys content size.toNat pos with
      | .exn e => (st, .exn e)
      | .hang => (st, .hang)
      | .ok chunk => (st, .ok chunk)

/-- The retry loop shared by `File.write` and `File.pwrite`
(`while wlen < dlen: ...`).  `t` is the running `_tries`; a zero-byte
result decrements it and raises when it reaches zero (by calling the
`IncompleteWrite` class with the three arguments `fd, pos, tries`), a
non-zero result advances `wlen` and resets `t` to `tries`. -/
def writeLoop (w : Nat → Nat) (fd : Nat) (dlen : Nat) (pos : Int) (tries : Int) :
    Nat → Nat → Nat → Int → PyRes Nat
  | 0, _, _, _ => .hang
  | fuel + 1, k, wlen, t =>
    if wlen < dlen then
      match pwriteSys w k (dlen - wlen) (pos + wlen) with
      | .exn e => .exn e
      | .hang => .hang
      | .ok r =>
        if r = 0 then
          if t - 1 = 0 then .exn (incompleteWriteNew [(fd : Int), pos, tries])
          else writeLoop w fd dlen pos tries fuel (k + 1) wlen (t - 1)
        else writeLoop w fd dlen pos tries fuel (k + 1) (wlen + r) tries
    else .ok wlen

/-- Method `File.write(data, pos=None, tries=3)`: guarded, space-checked retry
write that moves the cursor to the end of the written data on success. -/
def write (flags : Nat) (spaceOk : Bool) (w : Nat → Nat) (st : FileSt)
    (data : List Nat) (pos? : Option Int) (tries : Int) : FileSt × PyRes Unit :=
  if write_check flags = false then (st, .exn (.notWriteable st.fd))
  else
    let pos : Int := pos?.getD st.pos
    if data = [] then (st, .ok ())
    else
      let dlen := data.length
      if spaceOk = false then (st, .exn .osError)
      else
        match writeLoop w st.fd dlen pos tries
            (dlen * tries.toNat + tries.toNat + 1) 0 0 tries with
        | .ok wlen => ({ st with pos := pos + wlen }, .ok ())
        | .exn e => (st, .exn e)
        | .hang => (st, .hang)

/-- Method `File.pwrite(data, pos=None, tries=3)`: same retry write with no
assignment to `self.pos`. -/
def pwrite (flags : Nat) (spaceOk : Bool) (w : Nat → Nat) (st : FileSt)
    (data : List Nat) (pos? : Option Int) (tries : Int) : FileSt × PyRes Unit :=
  if write_check flags = false then (st, .exn (.notWriteable st.fd))
  else
    let pos : Int := pos?.getD st.pos
    if data = [] then (st, .ok ())
    else
      let dlen := data.length
      if spaceOk = false then (st, .exn .osError)
      else
        match writeLoop w st.fd dlen pos tries
            (dlen * tries.toNat + tries.toNat + 1) 0 0 tries with
        | .ok _ => (st, .ok ())
        | .exn e => (st, .exn e)
        | .hang => (st, .hang)

/-- Method `File.moveto(pos)`: cursor relocation, rejecting negative positions. -/
def moveto (st : FileSt) (pos : Int) : FileSt × PyRes Unit :=
  if pos < 0 then (st, .exn .valueError)
  else ({ st with pos := pos }, .ok ())

/-- Method `File.truncate(length=0)`: guarded resize (`os.ftruncate` modelled as
succeeding); relocates the cursor via `self.moveto(length)` exactly when
the prior size `sz` (`self.size`, a live `fstat` value) exceeds `length`. -/
def truncate (flags : Nat) (sz : Nat) (st : FileSt) (length : Int) :
    FileSt × PyRes Unit :=
  if write_check flags = false then (st, .exn (.notWriteable st.fd))
  else if length < 0 then (st, .exn .valueError)
  else if (sz : Int) > length then moveto st length
  else (st, .ok ())

end File

/-- Python's `slice(i, j, k).indices(len)` for a non-zero step `k` (CPython's
normalisation): clamps the two bounds into range, with the step's sign
choosing the out-of-range sentinels. -/
def sliceIndices (i : Int) (j : Option Int) (k : Int) (len : Nat) : Int × Int :=
  let L : Int := (len : Int)
  let lo : Int := if k < 0 then -1 else 0
  let hiB : Int := if k < 0 then L - 1 else L
  let norm : Int → Int := fun x =>
    if x < 0 then (if x + L < 0 then lo else x + L)
    else if x ≥ L then hiB else x
  let i' := norm i
  let j' := match j with
    | none => if k < 0 then -1 else L
    | some j => norm j
  (i', j')

/-- Python's `xrange(i, j, k)` for a non-zero step `k`. -/
def xrangeList (i j k : Int) : List Int :=
  if 0 < k then
    (List.range (((j - i).toNat + (k.toNat - 1)) / k.toNat)).map (fun t => i + k * t)
  else if k < 0 then
    (List.range (((i - j).toNat + ((-k).toNat - 1)) / (-k).toNat)).map (fun t => i + k * t)
  else []

namespace File

/-- The body of the `File.chunks` generator: one `self.pread(size, offset)`
per produced offset, threading the object state. -/
def chunksGo (flags : Nat) (content : List Nat) (size : Int) :
    List Int → FileSt → FileSt × PyRes (List (List Nat))
  | [], st => (st, .ok [])
  | o :: os, st =>
    match pread flags content st (some size) (some o) with
    | (st1, .ok c) =>
      match chunksGo flags content size os st1 with
      | (st2, .ok cs) => (st2, .ok (c :: cs))
      | (st2, .exn e) => (st2, .exn e)
      | (st2, .hang) => (st2, .hang)
    | (st1, .exn e) => (st1, .exn e)
    | (st1, .hang) => (st1, .hang)

/-- Method `File.chunks(size, start=0, stop=None)`: positioned reads of length
`size` at the offsets of `xrange(*slice(start, stop, size).indices(len(self)))`
(a zero `size` makes `slice.indices` raise `ValueError`). -/
def chunks (flags : Nat) (content : List Nat) (st : FileSt) (size : Int)
    (start : Int) (stop : Option Int) : FileSt × PyRes (List (List Nat)) :=
  if size = 0 then (st, .exn .valueError)
  else
    let ij := sliceIndices start stop size content.length
    chunksGo flags content size (xrangeList ij.1 ij.2 size) st

end File

/-! ## `File.open` and the open-mode policy -/

/-- Intent `FO_READNEW` (create new, read mode). -/
def FO_READNEW : Int := 0
/-- Intent `FO_READEX` (open existing, read mode). -/
def FO_READEX : Int := 1
/-- Intent `FO_WRNEW` (create new, write mode). -/
def FO_WRNEW : Int := 2
/-- Intent `FO_WREX` (open existing, write mode). -/
def FO_WREX : Int := 3
/-- Intent `FO_WREXTR` (open existing, write mode, truncate). -/
def FO_WREXTR : Int := 4
/-- Intent `FO_APNEW` (create new, append mode). -/
def FO_APNEW : Int := 5
/-- Intent `FO_APEX` (open existing, append mode). -/
def FO_APEX : Int := 6
/-- Intent `FO_APEXTR` (open existing, append mode, truncate). -/
def FO_APEXTR : Int := 7
/-- Intent `FO_READ` (read, create if missing). -/
def FO_READ : Int := 8
/-- Intent `FO_WRITE` (write, create if missing). -/
def FO_WRITE : Int := 9
/-- Intent `FO_APPEND` (append, create if missing). -/
def FO_APPEND : Int := 10

/-- Tuple `FO_MODES`: the tuple of the 11 open intents. -/
def FO_MODES : List Int :=
  [FO_READNEW, FO_READEX, FO_WRNEW, FO_WREX, FO_WREXTR,
   FO_APNEW, FO_APEX, FO_APEXTR, FO_READ, FO_WRITE, FO_APPEND]

/-- Tuple `_FO_NEW_MODES`: the tuple of the six intents that may create the file. -/
def FO_NEW_MODES : List Int :=
  [FO_READNEW, FO_WRNEW, FO_APNEW, FO_READ, FO_WRITE, FO_APPEND]

/-- The environment of one `File.open` call: the two oracle verdicts
(`fcheck.mode_check`, `fcheck.ino_check`, both outside `src/` and treated
by the spec as the resource-policy oracle), the raw result of the
mode-specific `os.open` (`none` when it raises), and whether that syscall
created the file. -/
structure OpenEnv where
  modeOk : Bool
  inoOk : Bool
  sysOpen : Option Nat
  creates : Bool
deriving DecidableEq, Repr

/-- What `File.open` produced. -/
inductive OpenRes where
  | handle (fd : Nat)
  | err (e : PyErr)
  | errNoInodes
deriving DecidableEq, Repr

/-- Observable outcome of one `File.open` call: the result, whether a file
created during the call still exists at return, and whether the raw
descriptor was closed by the rollback `except` clause. -/
structure OpenOutcome where
  result : OpenRes
  createdRemains : Bool
  rawClosed : Bool
deriving DecidableEq, Repr

/-- Static method `File.open(fpath, oflag, mode=0666)`: validate the intent and the
permission bits, run the mode-specific `os.open`, wrap the descriptor, and
re-check inode headroom with `if mode in _FO_NEW_MODES and not
fcheck.ino_check(int(fd))` — note the code tests `mode` (the permission
bits), as written at `fd.py:335`.  The `except` clause closes the raw
descriptor and re-raises; nothing removes a created file. -/
def fileOpen (env : OpenEnv) (oflag : Int) (mode : Int) : OpenOutcome :=
  if oflag ∉ FO_MODES then ⟨.err .valueError, false, false⟩
  else if env.modeOk = false then ⟨.err .valueError, false, false⟩
  else
    match env.sysOpen with
    | none => ⟨.err .osError, false, false⟩
    | some fd0 =>
      if mode ∈ FO_NEW_MODES ∧ env.inoOk = false then
        ⟨.errNoInodes, env.creates, true⟩
      else ⟨.handle fd0, env.creates, false⟩

/-! ## `FD.close` -/

/-- Modelled from the spec: `pysec.core.unistd.close` is not under `src/`.
Per the spec (§4.2: close releases the resource exactly once and is
idempotent on repeated calls) the modelled syscall removes the descriptor
from the set of open descriptors and is a harmless no-op when it is not
open. -/
def unistdClose (openFds : List Nat) (fd : Nat) : List Nat :=
  openFds.filter (fun g => g != fd)

/-- Method `FD.close`: `unistd.close(self.fd)`. -/
def FD.close (openFds : List Nat) (self : Nat) : List Nat :=
  unistdClose openFds self

/-! ## Helper lemmas: Python indexing -/

theorem pyGet_coe {α : Type} (l : List α) (n : Nat) : pyGet l (n : Int) = l.get? n := by
  simp [pyGet]

theorem pyGet_sub_coe {α : Type} (l : List α) (a b : Nat) (h : b ≤ a) :
    pyGet l ((a : Int) - (b : Int)) = l.get? (a - b) := by
  have h0 : (0 : Int) ≤ (a : Int) - (b : Int) := by omega
  have h1 : ((a : Int) - (b : Int)).toNat = a - b := by omega
  simp [pyGet, h0, h1]

theorem get?_lt {α : Type} (l : List α) (n : Nat) (h : n < l.length) :
    l.get? n = some (l.get ⟨n, h⟩) := by
  simp [List.get?_eq_getElem?, List.getElem?_eq_getElem h]

theorem getD_append_lt {α : Type} (l l' : List α) (d : α) (n : Nat) (h : n < l.length) :
    (l ++ l').getD n d = l.getD n d := by
  simp [List.getD, List.getElem?_append_left h]

theorem getD_append_len {α : Type} (l : List α) (a d : α) (n : Nat) (h : n = l.length) :
    (l ++ [a]).getD n d = a := by
  subst h; simp [List.getD_append_right]

/-! ## Shift lemmas -/

theorem isShift_of_le {α : Type} (P : List α) {m s : Nat} (h : m ≤ s) : isShift P m s := by
  unfold isShift
  have h1 : (P.take m).drop s = [] := by
    apply List.drop_eq_nil_of_le
    simp only [List.length_take]
    omega
  have h2 : m - s = 0 := by omega
  simp [h1, h2]

theorem isShift_self {α : Type} (P : List α) (m : Nat) : isShift P m m :=
  isShift_of_le P le_rfl

theorem isShift_add {α : Type} (P : List α) {m s t : Nat}
    (h1 : isShift P m s) (h2 : isShift P (m - s) t) : isShift P m (s + t) := by
  unfold isShift at *
  have key : (P.take m).drop (s + t) = ((P.take m).drop s).drop t := by
    rw [List.drop_drop]
  rw [key, h1, h2]
  congr 1
  omega

theorem isShift_diff {α : Type} (P : List α) {m s k : Nat}
    (h1 : isShift P m s) (h2 : isShift P m k) (h : s ≤ k) :
    isShift P (m - s) (k - s) := by
  unfold isShift at *
  have key : (P.take (m - s)).drop (k - s) = (P.take m).drop k := by
    rw [← h1, List.drop_drop]
    congr 1
    omega
  rw [key, h2]
  congr 1
  omega

theorem isShift_succ_iff {α : Type} (P : List α) {pos s : Nat} (hpos : pos < P.length)
    (hs1 : 1 ≤ s) (hsp : s ≤ pos) :
    isShift P (pos + 1) s ↔ (isShift P pos s ∧ P.get? pos = P.get? (pos - s)) := by
  have hps : pos - s < P.length := lt_of_le_of_lt (Nat.sub_le _ _) hpos
  have htk : P.take (pos + 1) = P.take pos ++ [P.get ⟨pos, hpos⟩] := by
    have := List.take_succ (l := P) (n := pos)
    simpa [List.getElem?_eq_getElem hpos] using this
  have htk2 : P.take (pos + 1 - s) = P.take (pos - s) ++ [P.get ⟨pos - s, hps⟩] := by
    have h1 : pos + 1 - s = (pos - s) + 1 := by omega
    rw [h1]
    have := List.take_succ (l := P) (n := pos - s)
    simpa [List.getElem?_eq_getElem hps] using this
  have hlen : s ≤ (P.take pos).length := by
    simp only [List.length_take]
    omega
  constructor
  · intro hsh
    unfold isShift at hsh
    rw [htk, htk2, List.drop_append_of_le_length hlen] at hsh
    have hlen2 : ((P.take pos).drop s).length = (P.take (pos - s)).length := by
      simp only [List.length_drop, List.length_take]
      omega
    obtain ⟨hA, hB⟩ := List.append_inj hsh hlen2
    refine ⟨hA, ?_⟩
    rw [get?_lt P pos hpos, get?_lt P (pos - s) hps]
    simpa using hB
  · rintro ⟨hA, hB⟩
    unfold isShift at *
    rw [htk, htk2, List.drop_append_of_le_length hlen, hA]
    rw [get?_lt P pos hpos, get?_lt P (pos - s) hps] at hB
    simp at hB
    simp only [List.get_eq_getElem]
    rw [hB]

/-! ## Minimal-shift lemmas -/

theorem IsMinShift.le_succ {α : Type} {P : List α} {m s : Nat}
    (h : IsMinShift P m s) : s ≤ m + 1 := by
  by_contra hc
  push_neg at hc
  rcases Nat.eq_zero_or_pos m with hm | hm
  · exact h.2.2 1 le_rfl (by omega) (isShift_of_le P (by omega))
  · exact h.2.2 m hm (by omega) (isShift_self P m)

theorem IsMinShift.le_of_pos {α : Type} {P : List α} {m s : Nat}
    (h : IsMinShift P m s) (hm : 1 ≤ m) : s ≤ m := by
  by_contra hc
  push_neg at hc
  exact h.2.2 m hm hc (isShift_self P m)

/-! ## Correctness of the shift-table construction -/

theorem tAdjust_isMin {α : Type} [DecidableEq α] (P : List α) (ts : List Nat) (pos : Nat)
    (hpos : pos < P.length)
    (hts : ∀ m, m ≤ pos → IsMinShift P m (ts.getD m 1)) (fuel : Nat) :
    ∀ s, 1 ≤ s → (s ≤ pos → isShift P pos s) → s ≤ pos + 1 →
      (∀ k, 1 ≤ k → k < s → ¬ isShift P (pos + 1) k) →
      pos + 1 - s < fuel →
      IsMinShift P (pos + 1) (tAdjust P ts pos fuel s) := by
  induction fuel with
  | zero =>
    intro s hs1 _ _ _ hf
    omega
  | succ fuel ih =>
    intro s hs1 hshift hsb hmin hf
    rw [tAdjust]
    split
    · next hcond =>
      obtain ⟨hne, hsp⟩ := hcond
      have hne' : P.get? pos ≠ P.get? (pos - s) := by
        rwa [pyGet_coe, pyGet_sub_coe P pos s hsp] at hne
      have hmin' : IsMinShift P (pos - s) (ts.getD (pos - s) 1) :=
        hts (pos - s) (by omega)
      set sl := ts.getD (pos - s) 1 with hsl
      have hsl1 : 1 ≤ sl := hmin'.1
      have hslb : sl ≤ (pos - s) + 1 := hmin'.le_succ
      have hshifts : isShift P pos s := hshift hsp
      apply ih (s + sl)
      · omega
      · intro _
        exact isShift_add P hshifts hmin'.2.1
      · omega
      · intro k hk1 hk2 hcontra
        rcases Nat.lt_or_ge k s with hks | hks
        · exact hmin k hk1 hks hcontra
        · have hkp : k ≤ pos := by omega
          rcases Nat.eq_or_lt_of_le hks with hke | hks'
          · subst hke
            exact hne' ((isShift_succ_iff P hpos hk1 hkp).mp hcontra).2
          · have hsk : isShift P pos k :=
              ((isShift_succ_iff P hpos hk1 hkp).mp hcontra).1
            have hdiff : isShift P (pos - s) (k - s) :=
              isShift_diff P hshifts hsk (by omega)
            exact hmin'.2.2 (k - s) (by omega) (by omega) hdiff
      · omega
    · next hcond =>
      rcases Nat.lt_or_ge pos s with hps | hps
      · have hse : s = pos + 1 := by omega
        exact ⟨hs1, by rw [hse]; exact isShift_self P (pos + 1), hmin⟩
      · have heq : pyGet P (pos : Int) = pyGet P ((pos : Int) - (s : Int)) := by
          by_contra hne
          exact hcond ⟨hne, hps⟩
        have heq' : P.get? pos = P.get? (pos - s) := by
          rwa [pyGet_coe, pyGet_sub_coe P pos s hps] at heq
        exact ⟨hs1, (isShift_succ_iff P hpos hs1 hps).mpr ⟨hshift hps, heq'⟩, hmin⟩

theorem tBuild_spec {α : Type} [DecidableEq α] (P : List α) :
    ∀ n, n ≤ P.length →
      ((tBuild P n).1.length = n + 1) ∧
      ((tBuild P n).2 = (tBuild P n).1.getD n 1) ∧
      (∀ m, m ≤ n → IsMinShift P m ((tBuild P n).1.getD m 1)) := by
  intro n
  induction n with
  | zero =>
    intro _
    refine ⟨rfl, rfl, ?_⟩
    intro m hm
    have hm0 : m = 0 := by omega
    subst hm0
    show IsMinShift P 0 1
    exact ⟨le_rfl, isShift_of_le P (by omega), fun k hk1 hk2 => by omega⟩
  | succ n ih =>
    intro hn
    obtain ⟨hlen, hsh, hmin⟩ := ih (by omega)
    have hpos : n < P.length := by omega
    have hme : IsMinShift P n ((tBuild P n).2) := by
      rw [hsh]
      exact hmin n le_rfl
    have hnew : IsMinShift P (n + 1)
        (tAdjust P (tBuild P n).1 n (n + 1) (tBuild P n).2) := by
      apply tAdjust_isMin P (tBuild P n).1 n hpos (fun m hm => hmin m hm) (n + 1)
        (tBuild P n).2 hme.1 (fun _ => hme.2.1) hme.le_succ
      · intro k hk1 hk2 hcontra
        have hkp : k ≤ n := by
          have := hme.le_succ
          omega
        exact hme.2.2 k hk1 hk2 ((isShift_succ_iff P hpos hk1 hkp).mp hcontra).1
      · have := hme.1
        omega
    refine ⟨?_, ?_, ?_⟩
    · simp only [tBuild, List.length_append, hlen, List.length_cons, List.length_nil]
    · show (tBuild P (n+1)).2 = _
      simp only [tBuild]
      rw [getD_append_len _ _ _ _ (by omega)]
    · intro m hm
      rcases Nat.lt_or_ge m (n + 1) with hlt | hge
      · show IsMinShift P m (((tBuild P n).1 ++ [_]).getD m 1)
        rw [getD_append_lt _ _ _ _ (by omega)]
        exact hmin m (by omega)
      · have hme2 : m = n + 1 := by omega
        subst hme2
        show IsMinShift P (n+1) (((tBuild P n).1 ++ [_]).getD (n+1) 1)
        rw [getD_append_len _ _ _ _ (by omega)]
        exact hnew

theorem shifts_good {α : Type} [DecidableEq α] (P : List α) : GoodTable P (shifts P) := by
  intro m hm
  exact (tBuild_spec P P.length le_rfl).2.2 m hm

/-! ## Viability lemmas for the scan -/

theorem viable_refl {α : Type} (P T : List α) (j : Nat) : viable P T j j := by
  refine ⟨le_rfl, by omega, ?_⟩
  have h1 : (T.take j).drop j = [] := by
    apply List.drop_eq_nil_of_le
    simp only [List.length_take]
    omega
  simp [h1]

theorem viable_succ_iff {α : Type} (P T : List α) {j d : Nat} (hj : j < T.length)
    (hd : d ≤ j) :
    viable P T (j + 1) d ↔
      viable P T j d ∧ j - d < P.length ∧ P.get? (j - d) = some (T.get ⟨j, hj⟩) := by
  have htk : T.take (j + 1) = T.take j ++ [T.get ⟨j, hj⟩] := by
    have := List.take_succ (l := T) (n := j)
    simpa [List.getElem?_eq_getElem hj] using this
  have hlen : d ≤ (T.take j).length := by
    simp only [List.length_take]
    omega
  constructor
  · rintro ⟨-, hb, hseg⟩
    have hlt : j - d < P.length := by omega
    have htk2 : P.take (j + 1 - d) = P.take (j - d) ++ [P.get ⟨j - d, hlt⟩] := by
      have h1 : j + 1 - d = (j - d) + 1 := by omega
      rw [h1]
      have := List.take_succ (l := P) (n := j - d)
      simpa [List.getElem?_eq_getElem hlt] using this
    rw [htk, htk2, List.drop_append_of_le_length hlen] at hseg
    have hlen2 : ((T.take j).drop d).length = (P.take (j - d)).length := by
      simp only [List.length_drop, List.length_take]
      omega
    obtain ⟨hA, hB⟩ := List.append_inj hseg hlen2
    refine ⟨⟨hd, by omega, hA⟩, hlt, ?_⟩
    rw [get?_lt P (j - d) hlt]
    simpa using hB.symm
  · rintro ⟨⟨-, -, hseg⟩, hlt, hchar⟩
    refine ⟨by omega, by omega, ?_⟩
    have htk2 : P.take (j + 1 - d) = P.take (j - d) ++ [P.get ⟨j - d, hlt⟩] := by
      have h1 : j + 1 - d = (j - d) + 1 := by omega
      rw [h1]
      have := List.take_succ (l := P) (n := j - d)
      simpa [List.getElem?_eq_getElem hlt] using this
    rw [htk, htk2, List.drop_append_of_le_length hlen, hseg]
    rw [get?_lt P (j - d) hlt] at hchar
    simp at hchar
    simp only [List.get_eq_getElem]
    rw [hchar]

theorem viable_of_occAt {α : Type} (P T : List α) {d j : Nat}
    (h : occAt P T d) (hj : j = d + P.length) : viable P T j d := by
  obtain ⟨hb, hseg⟩ := h
  refine ⟨by omega, by omega, ?_⟩
  have hdt : (T.take j).drop d = (T.drop d).take (j - d) := List.drop_take j d T
  rw [hdt]
  have h1 : j - d = P.length := by omega
  rw [h1, hseg, List.take_length]

theorem occAt_of_viable {α : Type} (P T : List α) {j d : Nat}
    (h : viable P T j d) (hfull : j - d = P.length) (hjT : j ≤ T.length) :
    occAt P T d := by
  obtain ⟨hd, -, hseg⟩ := h
  refine ⟨by omega, ?_⟩
  have hdt : (T.take j).drop d = (T.drop d).take (j - d) := List.drop_take j d T
  rw [hdt, hfull] at hseg
  rw [hseg]
  exact List.take_length P

/-! ## Correctness of the scan fold -/

theorem sFold_spec {α : Type} [DecidableEq α] (P T : List α) (ts : List Nat)
    (hts : GoodTable P ts) (s0 j : Nat) (hj : j < T.length) (fuel : Nat) :
    ∀ (d : Nat) (mlen : Int), mlen = (j : Int) - (d : Int) → d ≤ j + 1 →
      (d ≤ j → viable P T j d) →
      (∀ e, e < d → ¬ viable P T (j + 1) e) →
      mlen + 2 ≤ (fuel : Int) →
      ∃ d' : Nat,
        sFold P ts (T.get ⟨j, hj⟩) fuel (s0 + d, mlen) =
          (s0 + d', (j : Int) - (d' : Int)) ∧
        d' ≤ j + 1 ∧ viable P T (j + 1) d' ∧
        ∀ e, e < d' → ¬ viable P T (j + 1) e := by
  induction fuel with
  | zero =>
    intro d mlen hml hd _ _ hf
    simp only [Nat.cast_zero] at hf
    omega
  | succ fuel ih =>
    intro d mlen hml hd hvia hmin hf
    rw [sFold]
    split
    · next hguard =>
      have hml0 : 0 ≤ mlen := by
        rcases hguard with h | h
        · rw [h]; positivity
        · exact h.1
      have hdj : d ≤ j := by omega
      have hv : viable P T j d := hvia hdj
      have hmt : mlen.toNat = j - d := by omega
      set m := j - d with hm
      have hm_le : m ≤ P.length := hv.2.1
      have hmin' : IsMinShift P m (ts.getD m 1) := hts m hm_le
      set sl := ts.getD m 1 with hsl
      have hsl1 : 1 ≤ sl := hmin'.1
      have hslb : sl ≤ m + 1 := hmin'.le_succ
      have hcur : ¬ viable P T (j + 1) d := by
        rcases hguard with hg | hg
        · intro hcontra
          have : j + 1 - d ≤ P.length := hcontra.2.1
          have hmp : m = P.length := by omega
          omega
        · intro hcontra
          obtain ⟨-, hlt, hchar⟩ := (viable_succ_iff P T hj hdj).mp hcontra
          apply hg.2
          have hcast : mlen = ((m : Nat) : Int) := by omega
          rw [hcast, pyGet_coe, hchar]
      have hskip : ∀ k, 1 ≤ k → k < sl → ¬ viable P T (j + 1) (d + k) := by
        intro k hk1 hk2 hcontra
        have hkm : k ≤ m := by omega
        have hej : d + k ≤ j := by omega
        obtain ⟨hve, -, -⟩ := (viable_succ_iff P T hj hej).mp hcontra
        have hseg1 : (T.take j).drop (d + k) = P.take (j - (d + k)) := hve.2.2
        have hseg2 : (T.take j).drop (d + k) = (P.take m).drop k := by
          rw [← List.drop_drop, hv.2.2]
        have hshift : isShift P m k := by
          unfold isShift
          rw [← hseg2, hseg1]
          congr 1
          omega
        exact hmin'.2.2 k hk1 hk2 hshift
      have hminN : ∀ e, e < d + sl → ¬ viable P T (j + 1) e := by
        intro e he
        rcases Nat.lt_or_ge e d with h1 | h1
        · exact hmin e h1
        · rcases Nat.eq_or_lt_of_le h1 with h2 | h2
          · subst h2; exact hcur
          · have hk : e = d + (e - d) := by omega
            rw [hk]
            exact hskip (e - d) (by omega) (by omega)
      have hviaN : d + sl ≤ j → viable P T j (d + sl) := by
        intro hdsl
        refine ⟨hdsl, by omega, ?_⟩
        have hseg : (T.take j).drop (d + sl) = (P.take m).drop sl := by
          rw [← List.drop_drop, hv.2.2]
        rw [hseg, hmin'.2.1]
        congr 1
        omega
      have hcall := ih (d + sl) (mlen - sl) (by push_cast; omega) (by omega) hviaN hminN
        (by push_cast; push_cast at hf; omega)
      obtain ⟨d', hres, hd', hv', hmin2⟩ := hcall
      refine ⟨d', ?_, hd', hv', hmin2⟩
      show sFold P ts (T.get ⟨j, hj⟩) fuel
          (s0 + d + ts.getD mlen.toNat 1, mlen - (ts.getD mlen.toNat 1 : Int)) =
        (s0 + d', (j : Int) - (d' : Int))
      have e1 : s0 + d + ts.getD mlen.toNat 1 = s0 + (d + sl) := by
        rw [hmt, ← hsl]
        omega
      have e2 : mlen - (ts.getD mlen.toNat 1 : Int) = mlen - (sl : Int) := by
        rw [hmt, ← hsl]
      rw [e1, e2]
      exact hres
    · next hguard =>
      push_neg at hguard
      obtain ⟨hne, hrest⟩ := hguard
      rcases Int.lt_or_le mlen 0 with hneg | hpos
      · have hde : d = j + 1 := by omega
        refine ⟨d, ?_, by omega, ?_, hmin⟩
        · rw [hml]
        · rw [hde]; exact viable_refl P T (j + 1)
      · have hchar := hrest hpos
        have hdj : d ≤ j := by omega
        have hv : viable P T j d := hvia hdj
        have hmne : j - d < P.length := by
          have hle : j - d ≤ P.length := hv.2.1
          rcases Nat.eq_or_lt_of_le hle with he | hlt
          · exfalso; apply hne; omega
          · exact hlt
        have hcast : mlen = (((j - d : Nat)) : Int) := by omega
        rw [hcast, pyGet_coe] at hchar
        refine ⟨d, by rw [hml], by omega, ?_, hmin⟩
        refine (viable_succ_iff P T hj hdj).mpr ⟨hv, hmne, ?_⟩
        rw [get?_lt P (j - d) hmne] at hchar ⊢
        rw [hchar]

/-! ## Correctness of the search loop -/

theorem drop_cons_get {α : Type} (l : List α) (n : Nat) (h : n < l.length) :
    l.drop n = l.get ⟨n, h⟩ :: l.drop (n + 1) := by
  simpa using List.drop_eq_getElem_cons h

theorem sRun_cons {α : Type} [DecidableEq α] (P : List α) (ts : List Nat) (c : α)
    (rest : List α) (st : Nat × Int) :
    sRun P ts (c :: rest) st =
      if (sFold P ts c (P.length + 2) st).2 + 1 = (P.length : Int) then
        (sFold P ts c (P.length + 2) st).1 ::
          sRun P ts rest
            ((sFold P ts c (P.length + 2) st).1, (sFold P ts c (P.length + 2) st).2 + 1)
      else
        sRun P ts rest
          ((sFold P ts c (P.length + 2) st).1, (sFold P ts c (P.length + 2) st).2 + 1) := by
  rfl

theorem sRun_endYields {α : Type} [DecidableEq α] (P T : List α) (s0 : Nat) :
    ∀ (k j d : Nat), j + k = T.length → viable P T j d →
      (∀ e, e < d → ¬ viable P T j e) →
      sRun P (shifts P) (T.drop j) (s0 + d, (j : Int) - (d : Int)) =
        endYields P T s0 j := by
  intro k
  induction k with
  | zero =>
    intro j d hjk hv hmin
    have hj : j = T.length := by omega
    subst hj
    rw [List.drop_length]
    show ([] : List Nat) = endYields P T s0 T.length
    unfold endYields
    simp
  | succ k ih =>
    intro j d hjk hv hmin
    have hj : j < T.length := by omega
    have hdj : d ≤ j := hv.1
    rw [drop_cons_get T j hj, sRun_cons]
    have hmin' : ∀ e, e < d → ¬ viable P T (j + 1) e := by
      intro e he hcontra
      exact hmin e he ((viable_succ_iff P T hj (by omega)).mp hcontra).1
    have hfold := sFold_spec P T (shifts P) (shifts_good P) s0 j hj (P.length + 2) d
      ((j : Int) - (d : Int)) rfl (by omega) (fun _ => hv) hmin'
      (by have h1 : j - d ≤ P.length := hv.2.1; push_cast; omega)
    obtain ⟨d', hres, hd', hv', hmin2⟩ := hfold
    rw [hres]
    simp only
    have hcast : (j : Int) - (d' : Int) + 1 = ((j + 1 : Nat) : Int) - (d' : Int) := by
      push_cast; ring
    have htail : sRun P (shifts P) (T.drop (j + 1)) (s0 + d', ((j + 1 : Nat) : Int) - (d' : Int)) =
        endYields P T s0 (j + 1) :=
      ih (j + 1) d' (by omega) hv' hmin2
    have hlen_split : T.length - j = (T.length - (j + 1)) + 1 := by omega
    have hEY : endYields P T s0 j =
        if P.length ≤ j + 1 ∧ occAt P T (j + 1 - P.length) then
          (s0 + (j + 1 - P.length)) :: endYields P T s0 (j + 1)
        else endYields P T s0 (j + 1) := by
      unfold endYields
      rw [hlen_split, List.range'_succ j (T.length - (j + 1)) 1]
      by_cases hc : P.length ≤ j + 1 ∧ occAt P T (j + 1 - P.length)
      · rw [if_pos hc]
        exact List.filterMap_cons_some (if_pos hc)
      · rw [if_neg hc]
        exact List.filterMap_cons_none (if_neg hc)
    rw [hEY]
    by_cases hocc : P.length ≤ j + 1 ∧ occAt P T (j + 1 - P.length)
    · have hde : d' = j + 1 - P.length := by
        have hvo : viable P T (j + 1) (j + 1 - P.length) :=
          viable_of_occAt P T hocc.2 (by omega)
        have h1 : ¬ (j + 1 - P.length < d') := fun hc => hmin2 _ hc hvo
        have h2 : j + 1 - d' ≤ P.length := hv'.2.1
        omega
      have hyield : (j : Int) - (d' : Int) + 1 = (P.length : Int) := by omega
      rw [if_pos hyield, if_pos hocc, hcast, htail, hde]
    · have hyield : ¬ ((j : Int) - (d' : Int) + 1 = (P.length : Int)) := by
        intro hc
        apply hocc
        have hfull : j + 1 - d' = P.length := by omega
        have hple : P.length ≤ j + 1 := by omega
        have hde : d' = j + 1 - P.length := by omega
        exact ⟨hple, by rw [← hde]; exact occAt_of_viable P T hv' hfull (by omega)⟩
      rw [if_neg hyield, if_neg hocc, hcast, htail]

/-! ## Assembling `knp` against the exhaustive scan -/

theorem knp_eq_endYields {α : Type} [DecidableEq α] (S P : List α) (start : Nat)
    (stop : Option Nat) :
    knp S P start stop = endYields P (islice S start stop) start 0 := by
  have h := sRun_endYields P (islice S start stop) start (islice S start stop).length 0 0
    (by omega) (viable_refl P _ 0) (fun e he => absurd he (by omega))
  unfold knp
  have e : (start, (0 : Int)) = (start + 0, ((0 : Nat) : Int) - ((0 : Nat) : Int)) := by
    norm_num
  rw [e]
  simpa using h

theorem filterMap_congr_mem {α β : Type} {l : List α} {f g : α → Option β}
    (h : ∀ a ∈ l, f a = g a) : l.filterMap f = l.filterMap g := by
  induction l with
  | nil => rfl
  | cons a l ih =>
    rw [List.filterMap_cons, List.filterMap_cons, h a (by simp),
      ih (fun a ha => h a (by simp [ha]))]

theorem filter_map_as_filterMap {α : Type} (l : List α) (Q : α → Prop) [DecidablePred Q]
    (g : α → Nat) :
    (l.filter (fun o => decide (Q o))).map g =
      l.filterMap (fun o => if Q o then some (g o) else none) := by
  induction l with
  | nil => rfl
  | cons a l ih =>
    by_cases h : Q a
    · simp [List.filter_cons, List.filterMap_cons, h, ih]
    · simp [List.filter_cons, List.filterMap_cons, h, ih]

theorem reindex_ends {plen : Nat} (hplen : 1 ≤ plen) (N s0 : Nat) (Q : Nat → Prop)
    [DecidablePred Q] (hQ : ∀ d, Q d → d + plen ≤ N) :
    (List.range N).filterMap (fun i =>
        if plen ≤ i + 1 ∧ Q (i + 1 - plen) then some (s0 + (i + 1 - plen)) else none) =
      ((List.range N).filter (fun d => decide (Q d))).map (fun d => s0 + d) := by
  have hGnil : ∀ a b, (List.range' a b).filterMap
      (fun d => if Q d then some (s0 + d) else none) = [] → True := fun _ _ _ => trivial
  by_cases hc : plen ≤ N + 1
  · -- move to end positions `e = i + 1`, i.e. the window `range' 1 N`
    have s1 : (List.range N).filterMap (fun i =>
          if plen ≤ i + 1 ∧ Q (i + 1 - plen) then some (s0 + (i + 1 - plen)) else none) =
        (List.range' 1 N).filterMap (fun e =>
          if plen ≤ e ∧ Q (e - plen) then some (s0 + (e - plen)) else none) := by
      rw [List.range'_eq_map_range, List.filterMap_map]
      apply filterMap_congr_mem
      intro i _
      simp only [Function.comp_apply]
      rw [Nat.add_comm 1 i]
    have hsplit : List.range' 1 N = List.range' 1 (plen - 1) ++
        List.range' plen (N + 1 - plen) := by
      have hN : N = (plen - 1) + (N + 1 - plen) := by omega
      calc List.range' 1 N = List.range' 1 ((N + 1 - plen) + (plen - 1)) := by
            rw [show (N + 1 - plen) + (plen - 1) = N by omega]
        _ = List.range' 1 (plen - 1) ++ List.range' (1 + 1 * (plen - 1)) (N + 1 - plen) :=
            (List.range'_append 1 (plen - 1) (N + 1 - plen) 1).symm
        _ = List.range' 1 (plen - 1) ++ List.range' plen (N + 1 - plen) := by
            rw [show 1 + 1 * (plen - 1) = plen by omega]
    have hnil : (List.range' 1 (plen - 1)).filterMap (fun e =>
        if plen ≤ e ∧ Q (e - plen) then some (s0 + (e - plen)) else none) = [] := by
      rw [List.filterMap_eq_nil_iff]
      intro e he
      rw [List.mem_range'_1] at he
      rw [if_neg]
      intro hcond
      omega
    have s2 : (List.range' plen (N + 1 - plen)).filterMap (fun e =>
          if plen ≤ e ∧ Q (e - plen) then some (s0 + (e - plen)) else none) =
        (List.range (N + 1 - plen)).filterMap
          (fun d => if Q d then some (s0 + d) else none) := by
      rw [List.range'_eq_map_range, List.filterMap_map]
      apply filterMap_congr_mem
      intro d _
      simp only [Function.comp_apply]
      rw [show plen + d - plen = d by omega]
      by_cases hq : Q d
      · rw [if_pos ⟨by omega, hq⟩, if_pos hq]
      · rw [if_neg (fun hcond => hq hcond.2), if_neg hq]
    have s3 : (List.range N).filterMap (fun d => if Q d then some (s0 + d) else none) =
        (List.range (N + 1 - plen)).filterMap
          (fun d => if Q d then some (s0 + d) else none) := by
      have hN : N = (N + 1 - plen) + (plen - 1) := by omega
      calc (List.range N).filterMap (fun d => if Q d then some (s0 + d) else none)
          = (List.range ((N + 1 - plen) + (plen - 1))).filterMap
              (fun d => if Q d then some (s0 + d) else none) := by rw [← hN]
        _ = (List.range (N + 1 - plen) ++
              (List.range (plen - 1)).map ((N + 1 - plen) + ·)).filterMap
              (fun d => if Q d then some (s0 + d) else none) := by rw [List.range_add]
        _ = (List.range (N + 1 - plen)).filterMap
              (fun d => if Q d then some (s0 + d) else none) := by
            rw [List.filterMap_append]
            have : ((List.range (plen - 1)).map ((N + 1 - plen) + ·)).filterMap
                (fun d => if Q d then some (s0 + d) else none) = [] := by
              rw [List.filterMap_eq_nil_iff]
              intro e he
              simp only [List.mem_map, List.mem_range] at he
              obtain ⟨x, hx, hxe⟩ := he
              rw [if_neg]
              intro hq
              have := hQ e hq
              omega
            rw [this, List.append_nil]
    rw [s1, hsplit, List.filterMap_append, hnil, List.nil_append, s2,
      filter_map_as_filterMap, s3]
  · -- the pattern is longer than the text: both sides are empty
    have h1 : (List.range N).filterMap (fun i =>
        if plen ≤ i + 1 ∧ Q (i + 1 - plen) then some (s0 + (i + 1 - plen)) else none) = [] := by
      rw [List.filterMap_eq_nil_iff]
      intro i hi
      rw [List.mem_range] at hi
      rw [if_neg]
      intro hcond
      omega
    have h2 : (List.range N).filter (fun d => decide (Q d)) = [] := by
      rw [List.filter_eq_nil_iff]
      intro d hd
      simp only [decide_eq_true_eq]
      intro hq
      have := hQ d hq
      omega
    rw [h1, h2]
    rfl

theorem endYields_zero {α : Type} [DecidableEq α] (P T : List α) (s0 : Nat) (hP : P ≠ []) :
    endYields P T s0 0 =
      ((List.range T.length).filter (fun d => decide (occAt P T d))).map
        (fun d => s0 + d) := by
  have hplen : 1 ≤ P.length := List.length_pos.mpr hP
  unfold endYields
  rw [Nat.sub_zero, ← List.range_eq_range']
  exact reindex_ends hplen T.length s0 (occAt P T) (fun d hd => hd.1)

theorem islice_length {α : Type} (S : List α) (start : Nat) (stop : Option Nat) :
    (islice S start stop).length =
      (match stop with | none => S.length | some s => min s S.length) - start := by
  cases stop with
  | none => simp [islice]
  | some s => simp [islice, List.length_take]

theorem occAt_islice_iff {α : Type} (S P : List α) (hP : P ≠ []) (start d : Nat)
    (stop : Option Nat) :
    occAt P (islice S start stop) d ↔
      ((S.drop (start + d)).take P.length = P ∧
        start + d + P.length ≤
          (match stop with | none => S.length | some s => min s S.length)) := by
  have hplen : 1 ≤ P.length := List.length_pos.mpr hP
  cases stop with
  | none =>
    show occAt P (S.drop start) d ↔
      ((S.drop (start + d)).take P.length = P ∧ start + d + P.length ≤ S.length)
    unfold occAt
    have hlen : (S.drop start).length = S.length - start := by simp
    have hseg2 : (S.drop start).drop d = S.drop (start + d) := List.drop_drop d start S
    constructor
    · rintro ⟨hb, hseg⟩
      rw [hlen] at hb
      rw [hseg2] at hseg
      exact ⟨hseg, by omega⟩
    · rintro ⟨hseg, hle⟩
      exact ⟨by rw [hlen]; omega, by rw [hseg2]; exact hseg⟩
  | some s =>
    show occAt P ((S.take s).drop start) d ↔
      ((S.drop (start + d)).take P.length = P ∧ start + d + P.length ≤ min s S.length)
    unfold occAt
    have hlen : ((S.take s).drop start).length = min s S.length - start := by
      simp [List.length_take]
    have hseg2 : ((S.take s).drop start).drop d =
        (S.drop (start + d)).take (s - (start + d)) := by
      rw [List.drop_drop, List.drop_take]
    constructor
    · rintro ⟨hb, hseg⟩
      rw [hlen] at hb
      have hle : start + d + P.length ≤ min s S.length := by omega
      refine ⟨?_, hle⟩
      rw [hseg2, List.take_take,
        min_eq_left (by omega : P.length ≤ s - (start + d))] at hseg
      exact hseg
    · rintro ⟨hseg, hle⟩
      refine ⟨by rw [hlen]; omega, ?_⟩
      rw [hseg2, List.take_take,
        min_eq_left (by omega : P.length ≤ s - (start + d))]
      exact hseg

/-- The central equivalence: for a non-empty pattern, the offsets yielded by
`knp` are exactly the offsets found by the exhaustive scan. -/
theorem knp_eq_naiveOccs {α : Type} [DecidableEq α] (S P : List α) (hP : P ≠ [])
    (start : Nat) (stop : Option Nat) :
    knp S P start stop = naiveOccs S P start stop := by
  rw [knp_eq_endYields, endYields_zero P _ start hP]
  show _ = (List.range' start
      ((match stop with | none => S.length | some s => min s S.length) - start)).filter
    (fun o => decide ((S.drop o).take P.length = P ∧
      o + P.length ≤ (match stop with | none => S.length | some s => min s S.length)))
  set hi := (match stop with | none => S.length | some s => min s S.length) with hhi
  have hlen : (islice S start stop).length = hi - start := by
    rw [islice_length, ← hhi]
  rw [hlen, List.range'_eq_map_range, List.filter_map]
  congr 1
  apply List.filter_congr
  intro d hd
  simp only [Function.comp_apply]
  rw [decide_eq_decide]
  have hiff := occAt_islice_iff S P hP start d stop
  rw [← hhi] at hiff
  exact hiff

/-- C2: for every non-empty pattern `P` and source `S` with bounds `start`
and `stop`, `knp S P start stop` yields exactly the ascending sequence of
all offsets at which `P` occurs inside `S[start:stop)` (overlaps included),
and every yielded offset `o` satisfies `S[o : o + len P] = P`. -/
theorem knp_yields_exactly_all_occurrences {α : Type} [DecidableEq α] (S P : List α)
    (start : Nat) (stop : Option Nat) (hP : P ≠ []) :
    knp S P start stop = naiveOccs S P start stop ∧
    List.Chain' (· < ·) (knp S P start stop) ∧
    ∀ o ∈ knp S P start stop, (S.drop o).take P.length = P := by
  have heq := knp_eq_naiveOccs S P hP start stop
  refine ⟨heq, ?_, ?_⟩
  · rw [heq]
    unfold naiveOccs
    apply List.Pairwise.chain'
    apply List.Pairwise.filter
    rw [List.range'_eq_map_range]
    exact (List.pairwise_lt_range _).map _ (fun a b h => by omega)
  · intro o ho
    rw [heq] at ho
    unfold naiveOccs at ho
    rw [List.mem_filter] at ho
    exact (of_decide_eq_true ho.2).1

/-- Witness for C2 at the spec's example: pattern "aa" in "aaaa" yields
the overlapping occurrences 0, 1, 2. -/
theorem knp_yields_exactly_all_occurrences_witness :
    ([1, 1] : List Nat) ≠ [] ∧ knp [1, 1, 1, 1] [1, 1] 0 none = [0, 1, 2] := by
  refine ⟨by decide, ?_⟩
  have h := knp_yields_exactly_all_occurrences [1, 1, 1, 1] [1, 1] 0 none (by decide)
  rw [h.1]
  decide

/-- C7: for every source and non-empty pattern, `knp_first` returns the
first offset `knp` yields (the least occurrence offset) when an occurrence
exists in `S[start:stop)`, and the sentinel `-1` when the pattern is
absent. -/
theorem knp_first_returns_first_or_sentinel {α : Type} [DecidableEq α] (S P : List α)
    (start : Nat) (stop : Option Nat) (hP : P ≠ []) :
    knp_first S P start stop =
      (match naiveOccs S P start stop with
       | [] => (-1 : Int)
       | o :: _ => (o : Int)) := by
  unfold knp_first
  rw [knp_eq_naiveOccs S P hP start stop]

/-- Witness for C7 at the spec's example: "xyz" is absent from "abcabc",
so the sentinel -1 is returned; "bc" is present at offset 1. -/
theorem knp_first_returns_first_or_sentinel_witness :
    ([24, 25, 26] : List Nat) ≠ [] ∧
    knp_first [1, 2, 3, 1, 2, 3] [24, 25, 26] 0 none = -1 ∧
    knp_first [1, 2, 3, 1, 2, 3] [2, 3] 0 none = 1 := by
  refine ⟨by decide, ?_, ?_⟩
  · rw [knp_first_returns_first_or_sentinel [1, 2, 3, 1, 2, 3] [24, 25, 26] 0 none
      (by decide)]
    decide
  · rw [knp_first_returns_first_or_sentinel [1, 2, 3, 1, 2, 3] [2, 3] 0 none
      (by decide)]
    decide

/-! ## Claims about `File.open`, the write retry loop, truncate and close -/

/-- C1 (evaluating the code at the failing inputs): the inode-headroom
re-check in `File.open` is keyed on `mode` (the permission bits), not on
`oflag` (`fd.py:335` tests `mode in _FO_NEW_MODES`).  With the
create-exclusive intent `FO_WRNEW` and the default permission bits `0666`
(438), an inode oracle answering false after a successful creation is
ignored: a handle is returned and the created file remains.  With the
non-create intent `FO_READEX` and permission bits `2` the check fires.
And when the check does fire after a creation, the created file is never
removed — only the raw descriptor is closed. -/
theorem fileOpen_headroom_check_keyed_on_mode :
    fileOpen ⟨true, false, some 3, true⟩ FO_WRNEW 438 =
      ⟨OpenRes.handle 3, true, false⟩ ∧
    fileOpen ⟨true, false, some 3, false⟩ FO_READEX 2 =
      ⟨OpenRes.errNoInodes, false, true⟩ ∧
    fileOpen ⟨true, false, some 3, true⟩ FO_WRNEW 2 =
      ⟨OpenRes.errNoInodes, true, true⟩ := by
  refine ⟨by decide, by decide, by decide⟩

/-- C3 (evaluating the code at the claim's scenario): with an underlying
writer returning 0 bytes twice and then completing the transfer, a 10-byte
`File.write` with `tries = 3` succeeds and advances the cursor by the full
length; with `tries = 2` the budget is exhausted at exactly the second
consecutive zero-byte result, but the escalation raises `TypeError` — not
`IncompleteWrite` — because the raise site calls `IncompleteWrite(fd, pos,
tries)` while `IncompleteWrite.__init__` accepts `(fd, size)`.  The same
holds for `File.pwrite`, which leaves the cursor alone. -/
theorem write_retry_budget_scenarios :
    File.write 1 true (fun k => if k < 2 then 0 else 10) ⟨3, 0⟩
        (List.range 10) none 3 = (⟨3, 10⟩, PyRes.ok ()) ∧
    File.write 1 true (fun k => if k < 2 then 0 else 10) ⟨3, 0⟩
        (List.range 10) none 2 = (⟨3, 0⟩, PyRes.exn PyErr.typeError) ∧
    File.pwrite 1 true (fun k => if k < 2 then 0 else 10) ⟨3, 5⟩
        (List.range 10) none 3 = (⟨3, 5⟩, PyRes.ok ()) ∧
    File.pwrite 1 true (fun k => if k < 2 then 0 else 10) ⟨3, 5⟩
        (List.range 10) none 2 = (⟨3, 5⟩, PyRes.exn PyErr.typeError) := by
  refine ⟨by decide, by decide, by decide, by decide⟩

/-- C4: the `IncompleteWrite` escalation never constructs the failure
value: calling the class with the three arguments the raise sites pass
(`fd, pos, tries`) is a `TypeError` for every argument triple, a concrete
exhausted `File.pwrite` accordingly raises `TypeError`, and `TypeError` is
not an `IncompleteWrite` value carrying any fields. -/
theorem incompleteWrite_construction_fails :
    (∀ fd pos tries : Int, incompleteWriteNew [fd, pos, tries] = PyErr.typeError) ∧
    File.pwrite 1 true (fun _ => 0) ⟨7, 4⟩ [9] none 1 =
      (⟨7, 4⟩, PyRes.exn PyErr.typeError) ∧
    ∀ fd size : Int, PyErr.typeError ≠ PyErr.incompleteWrite fd size := by
  refine ⟨fun fd pos tries => rfl, by decide, fun fd size h => by simp at h⟩

/-- C5: on a writable descriptor, `File.truncate(length)` fails with the
InvalidArgument failure (`ValueError`) for every negative `length`; when
the prior size exceeded `length` (shrink) the cursor is relocated to
`length`; when the file is extended (prior size ≤ `length`) a cursor that
was within the old size is left unchanged. -/
theorem truncate_cursor_policy (flags : Nat) (sz : Nat) (st : FileSt) (length : Int)
    (hw : write_check flags = true) :
    (length < 0 → File.truncate flags sz st length = (st, PyRes.exn PyErr.valueError)) ∧
    (0 ≤ length → length < (sz : Int) →
      File.truncate flags sz st length = ({ st with pos := length }, PyRes.ok ())) ∧
    (0 ≤ length → (sz : Int) ≤ length → st.pos ≤ (sz : Int) →
      File.truncate flags sz st length = (st, PyRes.ok ())) := by
  refine ⟨?_, ?_, ?_⟩
  · intro h
    unfold File.truncate
    rw [if_neg (by simp [hw]), if_pos h]
  · intro h1 h2
    unfold File.truncate File.moveto
    rw [if_neg (by simp [hw]), if_neg (by omega), if_pos (by omega), if_neg (by omega)]
  · intro h1 h2 _
    unfold File.truncate
    rw [if_neg (by simp [hw]), if_neg (by omega), if_neg (by omega)]

/-- Witness for C5 at the spec's scenario: cursor at 8 with size 10,
truncate to 4 relocates the cursor to 4; a later truncate to 20 from size 4
leaves the cursor at 4; a negative length is rejected. -/
theorem truncate_cursor_policy_witness :
    File.truncate 1 10 ⟨3, 8⟩ 4 = (⟨3, 4⟩, PyRes.ok ()) ∧
    File.truncate 1 4 ⟨3, 4⟩ 20 = (⟨3, 4⟩, PyRes.ok ()) ∧
    File.truncate 1 4 ⟨3, 4⟩ (-1) = (⟨3, 4⟩, PyRes.exn PyErr.valueError) := by
  refine ⟨?_, ?_, ?_⟩
  · exact (truncate_cursor_policy 1 10 ⟨3, 8⟩ 4 (by decide)).2.1 (by decide) (by decide)
  · exact (truncate_cursor_policy 1 4 ⟨3, 4⟩ 20 (by decide)).2.2 (by decide) (by decide)
      (by decide)
  · exact (truncate_cursor_policy 1 4 ⟨3, 4⟩ (-1) (by decide)).1 (by decide)

/-- C6: closing a handle a second time after a successful close does not
fail and changes nothing (the close is idempotent), and closing one handle
does not affect any other handle: membership of every other descriptor in
the open set is unchanged. -/
theorem close_idempotent_and_isolated (s : List Nat) (h g : Nat) (hne : g ≠ h) :
    FD.close (FD.close s h) h = FD.close s h ∧
    (g ∈ FD.close s h ↔ g ∈ s) := by
  constructor
  · unfold FD.close unistdClose
    rw [List.filter_filter]
    apply List.filter_congr
    intro a _
    simp [Bool.and_self]
  · unfold FD.close unistdClose
    rw [List.mem_filter]
    simp [hne]

/-- Witness for C6: closing descriptor 3 twice out of `[3, 4]` equals
closing it once, and descriptor 4 is unaffected. -/
theorem close_idempotent_and_isolated_witness :
    FD.close (FD.close [3, 4] 3) 3 = FD.close [3, 4] 3 ∧
    (4 ∈ FD.close [3, 4] 3 ↔ 4 ∈ [3, 4]) :=
  ⟨(close_idempotent_and_isolated [3, 4] 3 4 (by decide)).1,
   (close_idempotent_and_isolated [3, 4] 3 4 (by decide)).2⟩

/-! ## Frame and guard properties of the `File` operations -/

theorem pread_state (flags : Nat) (content : List Nat) (st : FileSt)
    (size pos : Option Int) : (File.pread flags content st size pos).1 = st := by
  unfold File.pread
  split
  · rfl
  · dsimp only
    split
    · rfl
    · split <;> rfl

theorem chunksGo_state (flags : Nat) (content : List Nat) (size : Int) :
    ∀ (os : List Int) (st : FileSt), (File.chunksGo flags content size os st).1 = st := by
  intro os
  induction os with
  | nil => intro st; rfl
  | cons o os ih =>
    intro st
    unfold File.chunksGo
    rcases hpr : File.pread flags content st (some size) (some o) with ⟨st1, r⟩
    have hst1 : st1 = st := by
      have := pread_state flags content st (some size) (some o)
      rw [hpr] at this
      exact this
    cases r with
    | ok c =>
      rcases hgo : File.chunksGo flags content size os st1 with ⟨st2, r2⟩
      have hst2 : st2 = st1 := by
        have := ih st1
        rw [hgo] at this
        exact this
      subst hst1
      subst hst2
      cases r2 <;> simp [hpr, hgo]
    | exn e => simp [hpr, hst1]
    | hang => simp [hpr, hst1]

/-- C8: `File.pread` and `File.pwrite` leave the logical cursor (`pos`)
unchanged on every call, successful or failing, and `File.chunks`, built
purely from `pread`, never changes the state either. -/
theorem pread_pwrite_chunks_preserve_cursor (flags : Nat) (content : List Nat)
    (st : FileSt) :
    (∀ size pos, (File.pread flags content st size pos).1 = st) ∧
    (∀ spaceOk w data pos? tries,
      (File.pwrite flags spaceOk w st data pos? tries).1 = st) ∧
    (∀ size start stop, (File.chunks flags content st size start stop).1 = st) := by
  refine ⟨fun size pos => pread_state flags content st size pos, ?_, ?_⟩
  · intro spaceOk w data pos? tries
    unfold File.pwrite
    split
    · rfl
    · split
      · rfl
      · split
        · rfl
        · dsimp only
          split <;> rfl
  · intro size start stop
    unfold File.chunks
    split
    · rfl
    · exact chunksGo_state flags content size _ st

theorem writeLoop_ok_nonneg (w : Nat → Nat) (fd dlen : Nat) (pos : Int) (tries : Int)
    (fuel : Nat) (t : Int) (res : Nat) (hd : 0 < dlen)
    (h : File.writeLoop w fd dlen pos tries fuel 0 0 t = .ok res) : 0 ≤ pos := by
  cases fuel with
  | zero => exact absurd h (by simp [File.writeLoop])
  | succ fuel =>
    rw [File.writeLoop] at h
    rw [if_pos (by omega : (0 : Nat) < dlen)] at h
    unfold pwriteSys at h
    by_cases hc : pos + ((0 : Nat) : Int) < 0
    · rw [if_pos hc] at h
      exact absurd h (by simp)
    · omega

theorem writeLoop_no_notWriteable (w : Nat → Nat) (fd dlen : Nat) (pos : Int)
    (tries : Int) :
    ∀ (fuel k wlen : Nat) (t : Int) (g : Nat),
      File.writeLoop w fd dlen pos tries fuel k wlen t ≠ .exn (.notWriteable g) := by
  intro fuel
  induction fuel with
  | zero =>
    intro k wlen t g h
    simp [File.writeLoop] at h
  | succ fuel ih =>
    intro k wlen t g h
    rw [File.writeLoop] at h
    by_cases hwd : wlen < dlen
    · rw [if_pos hwd] at h
      cases hps : pwriteSys w k (dlen - wlen) (pos + wlen) with
      | exn e =>
        rw [hps] at h
        simp only [] at h
        unfold pwriteSys at hps
        split at hps
        · simp only [PyRes.exn.injEq] at h
          rw [h] at hps
          simp at hps
        · simp at hps
      | hang =>
        rw [hps] at h
        simp at h
      | ok r =>
        rw [hps] at h
        simp only [] at h
        split at h
        · split at h
          · simp [incompleteWriteNew] at h
          · exact ih (k + 1) wlen (t - 1) g h
        · exact ih (k + 1) _ tries g h
    · rw [if_neg hwd] at h
      simp at h

/-- C9: the logical cursor is ≥ 0 at all times: a fresh `File` starts at 0,
`moveto` rejects every negative position with the InvalidArgument failure
(`ValueError`), and each cursor-updating operation (`read`, `write`,
`truncate`, `moveto`) preserves non-negativity of the cursor on every
outcome. -/
theorem cursor_nonneg_invariant :
    (∀ fd, (fileInit fd).pos = 0) ∧
    (∀ (st : FileSt) (p : Int), p < 0 →
      File.moveto st p = (st, PyRes.exn PyErr.valueError)) ∧
    (∀ (st : FileSt) (p : Int), 0 ≤ st.pos → 0 ≤ (File.moveto st p).1.pos) ∧
    (∀ flags content (st : FileSt) size pos, 0 ≤ st.pos →
      0 ≤ (File.read flags content st size pos).1.pos) ∧
    (∀ flags spaceOk w (st : FileSt) data pos? tries, 0 ≤ st.pos →
      0 ≤ (File.write flags spaceOk w st data pos? tries).1.pos) ∧
    (∀ flags sz (st : FileSt) length, 0 ≤ st.pos →
      0 ≤ (File.truncate flags sz st length).1.pos) := by
  refine ⟨fun fd => rfl, ?_, ?_, ?_, ?_, ?_⟩
  · intro st p hp
    unfold File.moveto
    rw [if_pos hp]
  · intro st p h
    unfold File.moveto
    split
    · exact h
    · next hc => simpa using by omega
  · intro flags content st size pos h
    unfold File.read
    split
    · exact h
    · dsimp only
      split
      · exact h
      · unfold preadSys
        by_cases hc : pos.getD st.pos < 0
        · rw [if_pos hc]
          exact h
        · rw [if_neg hc]
          simp only []
          omega
  · intro flags spaceOk w st data pos? tries h
    unfold File.write
    split
    · exact h
    · split
      · exact h
      · split
        · exact h
        · next hdata _ =>
          dsimp only
          cases hres : File.writeLoop w st.fd data.length (pos?.getD st.pos) tries
              (data.length * tries.toNat + tries.toNat + 1) 0 0 tries with
          | ok wlen =>
            have hdl : 0 < data.length := List.length_pos.mpr hdata
            have hpos : 0 ≤ pos?.getD st.pos :=
              writeLoop_ok_nonneg w st.fd data.length (pos?.getD st.pos) tries
                (data.length * tries.toNat + tries.toNat + 1) tries wlen hdl hres
            simp only []
            show 0 ≤ pos?.getD st.pos + (wlen : Int)
            omega
          | exn e => exact h
          | hang => exact h
  · intro flags sz st length h
    unfold File.truncate
    split
    · exact h
    · split
      · exact h
      · split
        · next hlen _ =>
          unfold File.moveto
          rw [if_neg (by omega)]
          simpa using by omega
        · exact h

/-- Witness for C9: concrete instances of each conjunct, with the
non-negativity hypotheses discharged at cursor 0 or 2. -/
theorem cursor_nonneg_invariant_witness :
    (fileInit 3).pos = 0 ∧
    File.moveto ⟨3, 0⟩ (-2) = (⟨3, 0⟩, PyRes.exn PyErr.valueError) ∧
    0 ≤ (File.moveto ⟨3, 0⟩ 7).1.pos ∧
    0 ≤ (File.read 0 [5, 6] ⟨3, 0⟩ none none).1.pos ∧
    0 ≤ (File.write 1 true (fun _ => 4) ⟨3, 0⟩ [1, 2] none 3).1.pos ∧
    0 ≤ (File.truncate 1 5 ⟨3, 2⟩ 1).1.pos :=
  ⟨cursor_nonneg_invariant.1 3,
   cursor_nonneg_invariant.2.1 ⟨3, 0⟩ (-2) (by decide),
   cursor_nonneg_invariant.2.2.1 ⟨3, 0⟩ 7 (by decide),
   cursor_nonneg_invariant.2.2.2.1 0 [5, 6] ⟨3, 0⟩ none none (by decide),
   cursor_nonneg_invariant.2.2.2.2.1 1 true (fun _ => 4) ⟨3, 0⟩ [1, 2] none 3 (by decide),
   cursor_nonneg_invariant.2.2.2.2.2 1 5 ⟨3, 2⟩ 1 (by decide)⟩

/-- C10: `write`, `pwrite` and `truncate` raise the NotWriteable failure
exactly when the live descriptor flags contain neither the write-only bit
(`O_WRONLY`) nor the append bit (`O_APPEND`); in particular `write_check`
rejects a descriptor whose flags are exactly `O_RDWR`, which sets neither
bit, even though such a descriptor permits writing. -/
theorem write_guard_iff (flags : Nat) (spaceOk : Bool) (w : Nat → Nat) (st : FileSt)
    (data : List Nat) (pos? : Option Int) (tries : Int) (sz : Nat) (length : Int) :
    ((File.write flags spaceOk w st data pos? tries).2 =
        PyRes.exn (PyErr.notWriteable st.fd) ↔ write_check flags = false) ∧
    ((File.pwrite flags spaceOk w st data pos? tries).2 =
        PyRes.exn (PyErr.notWriteable st.fd) ↔ write_check flags = false) ∧
    ((File.truncate flags sz st length).2 =
        PyRes.exn (PyErr.notWriteable st.fd) ↔ write_check flags = false) ∧
    write_check O_RDWR = false := by
  refine ⟨?_, ?_, ?_, by decide⟩
  · constructor
    · intro h
      by_contra hc
      unfold File.write at h
      rw [if_neg hc] at h
      split at h
      · simp at h
      · split at h
        · simp at h
        · dsimp only at h
          cases hres : File.writeLoop w st.fd data.length (pos?.getD st.pos) tries
              (data.length * tries.toNat + tries.toNat + 1) 0 0 tries with
          | ok wlen => rw [hres] at h; simp at h
          | hang => rw [hres] at h; simp at h
          | exn e =>
            rw [hres] at h
            simp only [PyRes.exn.injEq] at h
            rw [h] at hres
            exact writeLoop_no_notWriteable w st.fd data.length (pos?.getD st.pos)
              tries _ 0 0 tries st.fd hres
    · intro h
      unfold File.write
      rw [if_pos h]
  · constructor
    · intro h
      by_contra hc
      unfold File.pwrite at h
      rw [if_neg hc] at h
      split at h
      · simp at h
      · split at h
        · simp at h
        · dsimp only at h
          cases hres : File.writeLoop w st.fd data.length (pos?.getD st.pos) tries
              (data.length * tries.toNat + tries.toNat + 1) 0 0 tries with
          | ok wlen => rw [hres] at h; simp at h
          | hang => rw [hres] at h; simp at h
          | exn e =>
            rw [hres] at h
            simp only [PyRes.exn.injEq] at h
            rw [h] at hres
            exact writeLoop_no_notWriteable w st.fd data.length (pos?.getD st.pos)
              tries _ 0 0 tries st.fd hres
    · intro h
      unfold File.pwrite
      rw [if_pos h]
  · constructor
    · intro h
      by_contra hc
      unfold File.truncate at h
      rw [if_neg hc] at h
      split at h
      · simp at h
      · split at h
        · next hlen _ =>
          unfold File.moveto at h
          rw [if_neg (by omega)] at h
          simp at h
        · simp at h
    · intro h
      unfold File.truncate
      rw [if_pos h]
